import Mathlib

/-!
# Verification of the Tempesta FW HTTP session subsystem (`fw/http_sess.h`)

This file gives a shallow embedding of the HTTP sticky-session subsystem:
the disposition codes and data-model constants are translated directly from
`src/fw/http_sess.h`; the behaviour of the operations declared there
(`tfw_http_sess_obtain`, `tfw_http_sess_put`, the session table, the cookie
codec, the JS challenge and the pinning policy in
`tfw_http_sess_get_srv_conn`) is implemented in `http_sess.c`, which is not
part of the supplied sources, so those operations are modelled from the
specification and marked as such in their doc comments.
-/

namespace HttpSess

/-! ## Constants from `fw/http_sess.h` -/

/-- `#define STICKY_NAME_MAXLEN (32)` -/
def STICKY_NAME_MAXLEN : Nat := 32

/-- `#define STICKY_OPT_MAXLEN (256)` -/
def STICKY_OPT_MAXLEN : Nat := 256

/-- `#define STICKY_KEY_MAX_LEN (256)`: maximum cookie value length for a
learned cookie. -/
def STICKY_KEY_MAX_LEN : Nat := 256

/-- `SHA1_DIGEST_SIZE` from the kernel crypto API: 20 bytes. -/
def SHA1_DIGEST_SIZE : Nat := 20

/-- `#define STICKY_KEY_HMAC_LEN (SHA1_DIGEST_SIZE)`: size of the binary
representation of the HMAC. -/
def STICKY_KEY_HMAC_LEN : Nat := SHA1_DIGEST_SIZE

/-! ## Disposition codes

The anonymous `enum` of `fw/http_sess.h`: `TFW_HTTP_SESS_FAILURE = -1`, then
`TFW_HTTP_SESS_SUCCESS = 0` and the C default successor rule for the rest. -/

/-- Internal error, may be any number < 0 (`TFW_HTTP_SESS_FAILURE = -1`). -/
def TFW_HTTP_SESS_FAILURE : Int := -1

/-- Session successfully obtained (`TFW_HTTP_SESS_SUCCESS = 0`). -/
def TFW_HTTP_SESS_SUCCESS : Int := 0

/-- Can't obtain session: new client; a redirection message sent. -/
def TFW_HTTP_SESS_REDIRECT_NEED : Int := TFW_HTTP_SESS_SUCCESS + 1

/-- Sticky cookie violated, client must be blocked. -/
def TFW_HTTP_SESS_VIOLATE : Int := TFW_HTTP_SESS_REDIRECT_NEED + 1

/-- JS challenge enabled, but request is not challengable. -/
def TFW_HTTP_SESS_JS_NOT_SUPPORTED : Int := TFW_HTTP_SESS_VIOLATE + 1

/-- JS challenge restart required, internal for the http_sess module. -/
def TFW_HTTP_SESS_JS_RESTART : Int := TFW_HTTP_SESS_JS_NOT_SUPPORTED + 1

/-- The complete set of disposition codes returned by
`tfw_http_sess_req_process` / `tfw_http_sess_resp_process`. -/
def dispositionCodes : List Int :=
  [TFW_HTTP_SESS_FAILURE, TFW_HTTP_SESS_SUCCESS, TFW_HTTP_SESS_REDIRECT_NEED,
   TFW_HTTP_SESS_VIOLATE, TFW_HTTP_SESS_JS_NOT_SUPPORTED,
   TFW_HTTP_SESS_JS_RESTART]

/-! ## Configuration structures from `fw/http_sess.h` -/

/-- `TfwCfgJsCh`: the JavaScript challenge configuration.  The `body` string
and the `users` refcount play no role in the timing logic and are omitted;
the three delays and the status code are kept. -/
structure TfwCfgJsCh where
  delay_min : Nat
  delay_limit : Nat
  delay_range : Nat
  st_code : Nat
deriving DecidableEq, Repr

/-- `tfw_http_cookie_t`: the sticky cookie configuration.  The crypto handle,
the name strings and the option strings do not affect the control flow
modelled here and are omitted; the numeric fields and flags are kept. -/
structure TfwHttpCookieCfg where
  js_challenge : Option TfwCfgJsCh
  redirect_code : Nat
  sess_lifetime : Nat
  max_misses : Nat
  tmt_sec : Nat
  learn : Bool
  enforce : Bool
deriving DecidableEq, Repr

/-- `tfw_http_sess_t`: the HTTP session descriptor.  The per-record `rwlock_t`
is a synchronisation device with no sequential content; the key union
(`hmac`/`cval`) is modelled as a single byte list `key` with `key_len` its
length, discriminated by `learned`.  `sid` is an identity for the record
(the C code identifies records by their address). -/
structure TfwHttpSess where
  sid : Nat
  key : List Nat
  ts : Nat
  expires : Nat
  vhost : Option Nat
  srv_conn : Option Nat
  users : Int
  learned : Bool
deriving DecidableEq, Repr

/-! ## Cookie codec -/

/-- Little-endian byte encoding of a timestamp on `n` bytes. -/
def tsBytes : Nat → Nat → List Nat
  | 0, _ => []
  | n + 1, t => (t % 256) :: tsBytes n (t / 256)

/-- Little-endian byte decoding of a timestamp. -/
def tsDecode : List Nat → Nat
  | [] => 0
  | b :: bs => b + 256 * tsDecode bs

/-- Number of bytes used to carry the timestamp inside the cookie value
(an `unsigned long` on the target platform). -/
def TS_LEN : Nat := 8

/-- Verification result of the cookie codec. -/
inductive VerifyResult where
  | valid (ts : Nat)
  | invalid
  | malformed
deriving DecidableEq, Repr

/-- Modelled from the spec: `build(client_fingerprint, timestamp)` of the
Cookie Codec (implemented in `http_sess.c`, absent from the sources).  It
computes a keyed HMAC over the client fingerprint concatenated with the
timestamp bytes and encodes the timestamp and the HMAC together.  `H` is the
keyed hash with the secret folded in. -/
def build (H : List Nat → List Nat) (fp : List Nat) (t : Nat) : List Nat :=
  tsBytes TS_LEN t ++ H (fp ++ tsBytes TS_LEN t)

/-- Modelled from the spec: `verify(cookie_value, client_fingerprint)` of the
Cookie Codec (implemented in `http_sess.c`, absent from the sources).  It
recomputes the HMAC over the presented timestamp and the fingerprint and
compares; a structurally malformed value is rejected as `malformed`, a
mismatching HMAC as `invalid`, never as a soft pass. -/
def verify (H : List Nat → List Nat) (cv : List Nat) (fp : List Nat) :
    VerifyResult :=
  if cv.length ≠ TS_LEN + STICKY_KEY_HMAC_LEN then .malformed
  else if cv.drop TS_LEN = H (fp ++ cv.take TS_LEN) then
    .valid (tsDecode (cv.take TS_LEN))
  else .invalid

/-! ## Session table -/

/-- The process-wide session table: a concurrent associative index from `key`
to session record.  `nextId` generates fresh record identities. -/
structure SessTable where
  recs : List TfwHttpSess
  nextId : Nat
deriving DecidableEq, Repr

/-- The table at process start: empty. -/
def emptyTable : SessTable := { recs := [], nextId := 0 }

/-- Does a record carry key `k`? -/
def keyMatch (k : List Nat) (r : TfwHttpSess) : Bool := r.key = k

/-- Increment the use counter (an atomic increment in the C code). -/
def bumpUsers (r : TfwHttpSess) : TfwHttpSess := { r with users := r.users + 1 }

/-- Decrement the use counter (an atomic decrement in the C code). -/
def decUsers (r : TfwHttpSess) : TfwHttpSess := { r with users := r.users - 1 }

/-- Slide the expiry forward to `now + lifetime`. -/
def setExpires (now lifetime : Nat) (r : TfwHttpSess) : TfwHttpSess :=
  { r with expires := now + lifetime }

/-- The reap survival test: a record is kept unless it is both expired and
unreferenced. -/
def reapKeep (now : Nat) (r : TfwHttpSess) : Bool :=
  !(decide (r.expires < now) && decide (r.users = 0))

/-- Find the record for `k` (per-bucket lookup). -/
def findRec (t : SessTable) (k : List Nat) : Option TfwHttpSess :=
  t.recs.find? (keyMatch k)

/-- Apply `f` to the first record satisfying `p`, leaving the rest alone
(the C code mutates one record found under the bucket lock). -/
def updFirst (p : TfwHttpSess → Bool) (f : TfwHttpSess → TfwHttpSess) :
    List TfwHttpSess → List TfwHttpSess
  | [] => []
  | r :: rs => if p r then f r :: rs else r :: updFirst p f rs

/-- The record created on first sight of key `k`: fresh identity, one user
(the creating caller), expiry one lifetime ahead. -/
def newRec (t : SessTable) (k : List Nat) (now lifetime : Nat) :
    TfwHttpSess :=
  { sid := t.nextId, key := k, ts := now, expires := now + lifetime,
    vhost := none, srv_conn := none, users := 1, learned := false }

/-- Modelled from the spec: `lookup_or_create(key)` backing
`tfw_http_sess_obtain` (implemented in `http_sess.c`, absent from the
sources).  Atomic find-or-insert; increments `users` on return; returns the
record, whether it was freshly created, and the new table. -/
def lookup_or_create (t : SessTable) (k : List Nat) (now lifetime : Nat) :
    TfwHttpSess × Bool × SessTable :=
  match t.recs.find? (keyMatch k) with
  | some r =>
      (bumpUsers r, false,
       { t with recs := updFirst (keyMatch k) bumpUsers t.recs })
  | none =>
      (newRec t k now lifetime, true,
       { recs := newRec t k now lifetime :: t.recs,
         nextId := t.nextId + 1 })

/-- Modelled from the spec: `touch(record)` (implemented in `http_sess.c`,
absent from the sources): slides `expires` forward by `sess_lifetime` from
now. -/
def touch (t : SessTable) (k : List Nat) (now lifetime : Nat) : SessTable :=
  { t with recs := updFirst (keyMatch k) (setExpires now lifetime) t.recs }

/-- Modelled from the spec: `release(record)` backing `tfw_http_sess_put`
(implemented in `http_sess.c`, absent from the sources): decrements `users`;
does not itself delete. -/
def release (t : SessTable) (k : List Nat) : SessTable :=
  { t with recs := updFirst (keyMatch k) decUsers t.recs }

/-- Modelled from the spec: `reap()` (implemented in `http_sess.c`, absent
from the sources): removes records where `now > expires && users == 0`. -/
def reap (t : SessTable) (now : Nat) : SessTable :=
  { t with recs := t.recs.filter (reapKeep now) }

/-- Modelled from the spec: a lookup with lazy expiry checked on lookup:
an expired record is treated as absent. -/
def lookupLive (t : SessTable) (k : List Nat) (now : Nat) :
    Option TfwHttpSess :=
  match findRec t k with
  | some r => if r.expires < now then none else some r
  | none => none

/-- One operation on the session table.  Each constructor is one atomic
step of the concurrent table (the spec makes `lookup_or_create` an atomic
find-or-insert and `users`/`expires` atomically updated), so any concurrent
execution linearises to a list of these. -/
inductive SessOp where
  | obtain (k : List Nat) (now lifetime : Nat)
  | put (k : List Nat)
  | touchOp (k : List Nat) (now lifetime : Nat)
  | reapOp (now : Nat)
deriving DecidableEq, Repr

/-- Apply one operation to the table (dropping the returned record). -/
def stepOp (t : SessTable) : SessOp → SessTable
  | .obtain k now lifetime => (lookup_or_create t k now lifetime).2.2
  | .put k => release t k
  | .touchOp k now lifetime => touch t k now lifetime
  | .reapOp now => reap t now

/-- Run a list of operations from a table. -/
def runOps (t : SessTable) : List SessOp → SessTable
  | [] => t
  | op :: ops => runOps (stepOp t op) ops

/-- A trace is valid when every `put` releases a record that is actually
held (`users > 0`): the spec makes callers responsible for pairing each
release with a prior `obtain`. -/
def validOps (t : SessTable) : List SessOp → Bool
  | [] => true
  | op :: ops =>
      (match op with
       | .put k =>
           match findRec t k with
           | some r => decide (0 < r.users)
           | none => false
       | _ => true) && validOps (stepOp t op) ops

/-- Number of records carrying key `k` in the table. -/
def countKey (t : SessTable) (k : List Nat) : Nat :=
  t.recs.countP (keyMatch k)

/-- `n` back-to-back `obtain` calls on the same key (the linearisation of
`n` racing callers): returns each caller's view (record, created flag) and
the final table. -/
def obtainSeq (k : List Nat) (now lifetime : Nat) :
    Nat → SessTable → List (TfwHttpSess × Bool) × SessTable
  | 0, t => ([], t)
  | n + 1, t =>
      (((lookup_or_create t k now lifetime).1,
        (lookup_or_create t k now lifetime).2.1) ::
         (obtainSeq k now lifetime n (lookup_or_create t k now lifetime).2.2).1,
       (obtainSeq k now lifetime n (lookup_or_create t k now lifetime).2.2).2)

/-! ## JS challenge -/

/-- Modelled from the spec: the JS challenge timing window check
(implemented in `http_sess.c`, absent from the sources): accept only if
`delay_min ≤ elapsed ≤ delay_min + delay_range + delay_limit`. -/
def js_elapsed_ok (js : TfwCfgJsCh) (elapsed : Nat) : Bool :=
  decide (js.delay_min ≤ elapsed) &&
  decide (elapsed ≤ js.delay_min + js.delay_range + js.delay_limit)

/-- Modelled from the spec: processing of a JS-challenge resubmission
(implemented in `http_sess.c`, absent from the sources).  The marker is
verified exactly like a sticky cookie; on a valid marker the elapsed time
between issue and receipt must fall inside the delay window, otherwise the
challenge failed (`JS_NOT_SUPPORTED`). -/
def js_resubmit (H : List Nat → List Nat) (js : TfwCfgJsCh)
    (marker : List Nat) (fp : List Nat) (now : Nat) : Int :=
  match verify H marker fp with
  | .valid ts =>
      if js_elapsed_ok js (now - ts) then TFW_HTTP_SESS_SUCCESS
      else TFW_HTTP_SESS_JS_NOT_SUPPORTED
  | _ => TFW_HTTP_SESS_JS_NOT_SUPPORTED

/-! ## Request processing: the miss counter -/

/-- Modelled from the spec: the branching of `tfw_http_sess_req_process` for
a request with no cookie (implemented in `http_sess.c`, absent from the
sources): `enforce == false` forwards unauthenticated; under enforcement a
JS challenge yields a redirect (or a restart when a previously issued
challenge timed out), and without a JS challenge a plain set-cookie
redirect is sent. -/
def absentBranch (cfg : TfwHttpCookieCfg) (challenged timedOut : Bool) :
    Int :=
  if cfg.enforce = false then TFW_HTTP_SESS_SUCCESS
  else match cfg.js_challenge with
    | some _ =>
        if challenged = false then TFW_HTTP_SESS_REDIRECT_NEED
        else if timedOut then TFW_HTTP_SESS_JS_RESTART
        else TFW_HTTP_SESS_REDIRECT_NEED
    | none => TFW_HTTP_SESS_REDIRECT_NEED

/-- Modelled from the spec: the branch of `tfw_http_sess_req_process` for a
request presenting an invalid or malformed cookie (implemented in
`http_sess.c`, absent from the sources): increment the per-client miss
counter; once the misses exceed `max_misses` the client is abusive
(`VIOLATE`); otherwise branch as if the cookie were absent. -/
def missStep (cfg : TfwHttpCookieCfg) (challenged timedOut : Bool)
    (misses : Nat) : Int × Nat :=
  if cfg.max_misses < misses + 1 then (TFW_HTTP_SESS_VIOLATE, misses + 1)
  else (absentBranch cfg challenged timedOut, misses + 1)

/-- The dispositions of `n` consecutive invalid-cookie requests starting
from miss counter `c`. -/
def missRunFrom (cfg : TfwHttpCookieCfg) (challenged timedOut : Bool) :
    Nat → Nat → List Int
  | _, 0 => []
  | c, n + 1 =>
      (missStep cfg challenged timedOut c).1 ::
        missRunFrom cfg challenged timedOut
          (missStep cfg challenged timedOut c).2 n

/-! ## Pinning policy -/

/-- The server-pool environment seen by the pinning policy: which
connections belong to an active, reachable server group, whether pinning is
enabled at the vhost, whether re-pinning on server removal is permitted, and
the connection the external scheduler would hand out. -/
structure PinEnv where
  liveConn : Nat → Bool
  pinEnabled : Bool
  repinAllowed : Bool
  sched : Nat

/-- Modelled from the spec: `tfw_http_sess_get_srv_conn` (implemented in
`http_sess.c`, absent from the sources).  Fast path: a pinned connection
still in an active, reachable group is returned with no scheduling call
(pinning disabled keeps using the pinned server until the session expires,
case 2 of the header comment).  Otherwise, if pinning is disabled at the
vhost or the pinned server was removed and re-pinning is disallowed, the
session is marked expired and the request falls through to the external
scheduler without updating `srv_conn`; otherwise the scheduler is invoked
and its connection stored as the new pinned connection.  Returns the
connection, the updated session and whether the scheduler was invoked. -/
def get_srv_conn (env : PinEnv) (s : TfwHttpSess) :
    Option Nat × TfwHttpSess × Bool :=
  match s.srv_conn with
  | some c =>
      if env.liveConn c then (some c, s, false)
      else if env.pinEnabled = false || env.repinAllowed = false then
        (some env.sched, { s with expires := 0 }, true)
      else
        (some env.sched, { s with srv_conn := some env.sched }, true)
  | none =>
      if env.pinEnabled = false then
        (some env.sched, { s with expires := 0 }, true)
      else
        (some env.sched, { s with srv_conn := some env.sched }, true)

/-- `n` consecutive `get_srv_conn` calls for the same session: the list of
returned connections, the final session, and how many times the external
scheduler was invoked. -/
def runGetSrvConn (env : PinEnv) : Nat → TfwHttpSess →
    List (Option Nat) × TfwHttpSess × Nat
  | 0, s => ([], s, 0)
  | n + 1, s =>
      ((get_srv_conn env s).1 ::
         (runGetSrvConn env n (get_srv_conn env s).2.1).1,
       (runGetSrvConn env n (get_srv_conn env s).2.1).2.1,
       (if (get_srv_conn env s).2.2 then 1 else 0) +
         (runGetSrvConn env n (get_srv_conn env s).2.1).2.2)

/-! ## Concrete instances used to exercise the theorems -/

/-- A concrete keyed hash (stand-in for the HMAC with the secret folded in):
pads the message with zeros up to the digest length.  On messages of at most
the digest length it is injective, which is what the tamper-detection
theorem requires of the real HMAC. -/
def padHash (m : List Nat) : List Nat :=
  (m ++ List.replicate STICKY_KEY_HMAC_LEN 0).take STICKY_KEY_HMAC_LEN

/-- A concrete session pinned to connection 1. -/
def demoSess : TfwHttpSess :=
  { sid := 0, key := [1], ts := 0, expires := 100, vhost := some 0,
    srv_conn := some 1, users := 1, learned := false }

/-- A pool where every connection is live. -/
def demoEnvLive : PinEnv :=
  { liveConn := fun _ => true, pinEnabled := true, repinAllowed := true,
    sched := 2 }

/-- A pool where connection 1 (the pinned one) is gone and re-pinning is
permitted; the scheduler hands out connection 2. -/
def demoEnvDead : PinEnv :=
  { liveConn := fun c => decide (c ≠ 1), pinEnabled := true,
    repinAllowed := true, sched := 2 }

/-- Pinning disabled at the vhost while the pinned connection is still
live. -/
def demoEnvNoPin : PinEnv :=
  { liveConn := fun _ => true, pinEnabled := false, repinAllowed := true,
    sched := 7 }

/-- Pinning disabled and the pinned connection dead. -/
def demoEnvExpire : PinEnv :=
  { liveConn := fun _ => false, pinEnabled := false, repinAllowed := true,
    sched := 7 }

/-- The JS challenge configuration of the spec scenario:
`delay_min = 500`, `delay_range = 1000`, `delay_limit = 200`. -/
def demoJsCfg : TfwCfgJsCh :=
  { delay_min := 500, delay_limit := 200, delay_range := 1000,
    st_code := 503 }

/-- A record for key `[1]` that is still referenced (`users = 1`). -/
def demoRecHeld : TfwHttpSess :=
  { sid := 0, key := [1], ts := 0, expires := 0, vhost := none,
    srv_conn := none, users := 1, learned := false }

/-- A table holding one record for key `[1]` that is still referenced
(`users = 1`). -/
def demoTableHeld : SessTable := { recs := [demoRecHeld], nextId := 1 }

/-- An unreferenced record for key `[1]` (`users = 0`). -/
def demoRecIdle : TfwHttpSess :=
  { sid := 0, key := [1], ts := 0, expires := 0, vhost := none,
    srv_conn := none, users := 0, learned := false }

/-- A table holding one unreferenced record for key `[1]` (`users = 0`). -/
def demoTableIdle : SessTable := { recs := [demoRecIdle], nextId := 1 }

/-! ## Cookie codec lemmas -/

theorem tsBytes_length (n t : Nat) : (tsBytes n t).length = n := by
  induction n generalizing t with
  | zero => rfl
  | succ n ih => simp [tsBytes, ih]

theorem tsDecode_tsBytes (n t : Nat) (h : t < 256 ^ n) :
    tsDecode (tsBytes n t) = t := by
  induction n generalizing t with
  | zero => simp [tsBytes, tsDecode]; omega
  | succ n ih =>
      have hdiv : t / 256 < 256 ^ n := by
        rw [Nat.div_lt_iff_lt_mul (by norm_num)]
        calc t < 256 ^ (n + 1) := h
        _ = 256 ^ n * 256 := by ring
      simp only [tsBytes, tsDecode, ih (t / 256) hdiv]
      omega

theorem build_take (H : List Nat → List Nat) (fp : List Nat) (t : Nat) :
    (build H fp t).take TS_LEN = tsBytes TS_LEN t := by
  unfold build
  rw [List.take_append_eq_append_take, tsBytes_length,
    List.take_of_length_le (le_of_eq (tsBytes_length TS_LEN t))]
  simp

theorem build_drop (H : List Nat → List Nat) (fp : List Nat) (t : Nat) :
    (build H fp t).drop TS_LEN = H (fp ++ tsBytes TS_LEN t) := by
  unfold build
  rw [List.drop_append_eq_append_drop, tsBytes_length]
  simp [List.drop_of_length_le (le_of_eq (tsBytes_length TS_LEN t))]

theorem build_length (H : List Nat → List Nat) (fp : List Nat) (t : Nat)
    (hlen : (H (fp ++ tsBytes TS_LEN t)).length = STICKY_KEY_HMAC_LEN) :
    (build H fp t).length = TS_LEN + STICKY_KEY_HMAC_LEN := by
  simp [build, tsBytes_length, hlen]

theorem verify_append (H : List Nat → List Nat) (fp tsb2 hh2 : List Nat)
    (h1 : tsb2.length = TS_LEN) (h2 : hh2.length = STICKY_KEY_HMAC_LEN) :
    verify H (tsb2 ++ hh2) fp =
      if hh2 = H (fp ++ tsb2) then .valid (tsDecode tsb2) else .invalid := by
  unfold verify
  rw [if_neg (by simp [h1, h2])]
  rw [← h1, List.take_left, List.drop_left]

theorem verify_build (H : List Nat → List Nat) (fp : List Nat) (t : Nat)
    (hlen : (H (fp ++ tsBytes TS_LEN t)).length = STICKY_KEY_HMAC_LEN)
    (ht : t < 256 ^ TS_LEN) :
    verify H (build H fp t) fp = .valid t := by
  rw [show build H fp t = tsBytes TS_LEN t ++ H (fp ++ tsBytes TS_LEN t) from
    rfl]
  rw [verify_append H fp _ _ (tsBytes_length _ _) hlen]
  simp [tsDecode_tsBytes TS_LEN t ht]

/-- `getD` of an append, left of the split point. -/
theorem getD_append_left (l1 l2 : List Nat) (i : Nat) (h : i < l1.length) :
    (l1 ++ l2).getD i 0 = l1.getD i 0 := by
  rw [List.getD_eq_getElem?_getD, List.getD_eq_getElem?_getD,
    List.getElem?_append_left h]

/-- `getD` of an append, right of the split point. -/
theorem getD_append_right (l1 l2 : List Nat) (i : Nat) (h : l1.length ≤ i) :
    (l1 ++ l2).getD i 0 = l2.getD (i - l1.length) 0 := by
  rw [List.getD_eq_getElem?_getD, List.getD_eq_getElem?_getD,
    List.getElem?_append_right h]

/-- Changing a byte strictly below a list's length to a different value
changes the list. -/
theorem set_ne_getD (l : List Nat) (i b : Nat) (hi : i < l.length)
    (hb : b ≠ l.getD i 0) : l.set i b ≠ l := by
  intro h
  have h2 := congrArg (fun x => x[i]?) h
  simp only [List.getElem?_set_self hi, List.getElem?_eq_getElem hi] at h2
  exact hb (by rw [List.getD_eq_getElem l 0 hi, ← Option.some_inj, h2])

/-! ## Claim theorems -/

/-- C10: in the disposition enum of `fw/http_sess.h`, `SUCCESS` equals 0,
`FAILURE` is the only negative code, and `REDIRECT_NEED`, `VIOLATE`,
`JS_NOT_SUPPORTED`, `JS_RESTART` are pairwise-distinct positive values, so
a caller's `result < 0` check holds exactly for the internal-error code
among the protocol outcomes. -/
theorem C10_disposition_codes :
    TFW_HTTP_SESS_SUCCESS = 0 ∧ TFW_HTTP_SESS_FAILURE < 0 ∧
    (∀ c ∈ dispositionCodes, (c < 0 ↔ c = TFW_HTTP_SESS_FAILURE)) ∧
    List.Pairwise (· ≠ ·) dispositionCodes ∧
    (∀ c ∈ [TFW_HTTP_SESS_REDIRECT_NEED, TFW_HTTP_SESS_VIOLATE,
            TFW_HTTP_SESS_JS_NOT_SUPPORTED, TFW_HTTP_SESS_JS_RESTART],
       0 < c) := by
  decide

/-- `padHash` always produces a digest of the HMAC length. -/
theorem padHash_length (m : List Nat) :
    (padHash m).length = STICKY_KEY_HMAC_LEN := by
  simp only [padHash, List.length_take, List.length_append,
    List.length_replicate]
  omega

/-- On timestamp-sized messages with an empty fingerprint, `padHash` is
injective. -/
theorem padHash_inj_nil (u v : List Nat) (hu : u.length = TS_LEN)
    (hv : v.length = TS_LEN) (h : padHash ([] ++ u) = padHash ([] ++ v)) :
    u = v := by
  simp only [List.nil_append] at h
  have e : ∀ w : List Nat, w.length = TS_LEN →
      padHash w = w ++ List.replicate (STICKY_KEY_HMAC_LEN - TS_LEN) 0 := by
    intro w hw
    unfold padHash
    rw [List.take_append_eq_append_take, hw,
      List.take_of_length_le (by rw [hw]; norm_num [TS_LEN,
        STICKY_KEY_HMAC_LEN, SHA1_DIGEST_SIZE]),
      List.take_replicate]
    norm_num [TS_LEN, STICKY_KEY_HMAC_LEN, SHA1_DIGEST_SIZE]
  rw [e u hu, e v hv] at h
  exact List.append_cancel_right h

/-- C3: HMAC round-trip and tamper detection.  For any keyed hash of the
declared digest length that is collision-free on this fingerprint's
timestamp inputs (the property assumed of the real HMAC), `verify` of a
freshly built cookie value returns `valid t` for every timestamp `t` in the
encodable range, and flipping any single byte of the built value to a
different value makes `verify` return `invalid` or `malformed`, never
`valid`. -/
theorem C3_hmac_roundtrip_tamper (H : List Nat → List Nat) (fp : List Nat)
    (t : Nat)
    (hlen : ∀ m, (H m).length = STICKY_KEY_HMAC_LEN)
    (hinj : ∀ u v, u.length = TS_LEN → v.length = TS_LEN →
              H (fp ++ u) = H (fp ++ v) → u = v)
    (ht : t < 256 ^ TS_LEN) :
    verify H (build H fp t) fp = .valid t ∧
    ∀ i b, i < (build H fp t).length → b ≠ (build H fp t).getD i 0 →
      ∀ t2, verify H ((build H fp t).set i b) fp ≠ .valid t2 := by
  have htl : (tsBytes TS_LEN t).length = TS_LEN := tsBytes_length _ _
  have hhl : (H (fp ++ tsBytes TS_LEN t)).length = STICKY_KEY_HMAC_LEN :=
    hlen _
  refine ⟨verify_build H fp t hhl ht, ?_⟩
  intro i b hi hb t2
  have hbuild : build H fp t
      = tsBytes TS_LEN t ++ H (fp ++ tsBytes TS_LEN t) := rfl
  rw [hbuild] at hi hb ⊢
  rw [List.set_append]
  by_cases ilt : i < (tsBytes TS_LEN t).length
  · rw [if_pos ilt]
    have hbl : b ≠ (tsBytes TS_LEN t).getD i 0 := by
      rw [getD_append_left _ _ _ ilt] at hb; exact hb
    rw [verify_append H fp _ _ (by rw [List.length_set]; exact htl) hhl]
    by_cases hc : H (fp ++ tsBytes TS_LEN t)
        = H (fp ++ (tsBytes TS_LEN t).set i b)
    · exact absurd (hinj _ _ htl (by rw [List.length_set]; exact htl) hc).symm
        (set_ne_getD _ i b ilt hbl)
    · rw [if_neg hc]; simp
  · rw [if_neg ilt]
    push_neg at ilt
    have hir : i - (tsBytes TS_LEN t).length
        < (H (fp ++ tsBytes TS_LEN t)).length := by
      rw [List.length_append] at hi; omega
    have hbr : b ≠ (H (fp ++ tsBytes TS_LEN t)).getD
        (i - (tsBytes TS_LEN t).length) 0 := by
      rw [getD_append_right _ _ _ ilt] at hb; exact hb
    rw [verify_append H fp _ _ htl (by rw [List.length_set]; exact hhl)]
    by_cases hc : (H (fp ++ tsBytes TS_LEN t)).set
        (i - (tsBytes TS_LEN t).length) b = H (fp ++ tsBytes TS_LEN t)
    · exact absurd hc (set_ne_getD _ _ _ hir hbr)
    · rw [if_neg hc]; simp

/-- Witness for C3 at the concrete hash `padHash`, fingerprint `[]`,
timestamp 5 and a mutation of byte 0 to the value 9. -/
theorem C3_hmac_roundtrip_tamper_witness :
    verify padHash (build padHash [] 5) [] = .valid 5 ∧
    (∀ t2, verify padHash ((build padHash [] 5).set 0 9) [] ≠ .valid t2) := by
  have h := C3_hmac_roundtrip_tamper padHash [] 5 padHash_length
    (fun u v hu hv hh => padHash_inj_nil u v hu hv hh)
    (by norm_num [TS_LEN])
  exact ⟨h.1, fun t2 => h.2 0 9 (by decide) (by decide) t2⟩

/-- The timing window test, spelled as a proposition. -/
theorem js_elapsed_ok_iff (js : TfwCfgJsCh) (e : Nat) :
    js_elapsed_ok js e = true ↔
      js.delay_min ≤ e ∧
      e ≤ js.delay_min + js.delay_range + js.delay_limit := by
  simp [js_elapsed_ok]

/-- C5: a JS-challenge resubmission with a valid signed marker is accepted
exactly when `delay_min ≤ elapsed ≤ delay_min + delay_range + delay_limit`;
with `delay_min = 500`, `delay_range = 1000`, `delay_limit = 200`, an
elapsed time of 400 yields `JS_NOT_SUPPORTED` and 900 yields `SUCCESS`. -/
theorem C5_js_challenge_window (H : List Nat → List Nat) (js : TfwCfgJsCh)
    (fp : List Nat) (ts now : Nat)
    (hlen : (H (fp ++ tsBytes TS_LEN ts)).length = STICKY_KEY_HMAC_LEN)
    (hts : ts < 256 ^ TS_LEN) :
    (js_resubmit H js (build H fp ts) fp now = TFW_HTTP_SESS_SUCCESS ↔
       js.delay_min ≤ now - ts ∧
       now - ts ≤ js.delay_min + js.delay_range + js.delay_limit) ∧
    (js.delay_min = 500 → js.delay_range = 1000 → js.delay_limit = 200 →
       (now - ts = 400 →
          js_resubmit H js (build H fp ts) fp now
            = TFW_HTTP_SESS_JS_NOT_SUPPORTED) ∧
       (now - ts = 900 →
          js_resubmit H js (build H fp ts) fp now
            = TFW_HTTP_SESS_SUCCESS)) := by
  have hv := verify_build H fp ts hlen hts
  have hmain : js_resubmit H js (build H fp ts) fp now
      = if js_elapsed_ok js (now - ts) then TFW_HTTP_SESS_SUCCESS
        else TFW_HTTP_SESS_JS_NOT_SUPPORTED := by
    unfold js_resubmit
    rw [hv]
  have hne : TFW_HTTP_SESS_JS_NOT_SUPPORTED ≠ TFW_HTTP_SESS_SUCCESS := by
    decide
  constructor
  · rw [hmain]
    by_cases he : js_elapsed_ok js (now - ts) = true
    · rw [if_pos he, ← js_elapsed_ok_iff]
      simp [he]
    · rw [if_neg he, ← js_elapsed_ok_iff]
      simp [he, hne]
  · intro h1 h2 h3
    constructor
    · intro h400
      rw [hmain, if_neg (by rw [js_elapsed_ok_iff, h400, h1]; omega)]
    · intro h900
      rw [hmain,
        if_pos (by rw [js_elapsed_ok_iff, h900, h1, h2, h3]; omega)]

/-- Witness for C5 at the concrete hash `padHash`, the scenario
configuration and elapsed times 400 and 900. -/
theorem C5_js_challenge_window_witness :
    js_resubmit padHash demoJsCfg (build padHash [] 0) [] 400
      = TFW_HTTP_SESS_JS_NOT_SUPPORTED ∧
    js_resubmit padHash demoJsCfg (build padHash [] 0) [] 900
      = TFW_HTTP_SESS_SUCCESS := by
  have h4 := C5_js_challenge_window padHash demoJsCfg [] 0 400
    (padHash_length _) (by norm_num [TS_LEN])
  have h9 := C5_js_challenge_window padHash demoJsCfg [] 0 900
    (padHash_length _) (by norm_num [TS_LEN])
  exact ⟨(h4.2 rfl rfl rfl).1 rfl, (h9.2 rfl rfl rfl).2 rfl⟩

/-- The absent-cookie branching never blocks the client: whatever the
configuration, it yields `SUCCESS`, `REDIRECT_NEED` or `JS_RESTART`, never
`VIOLATE`. -/
theorem absentBranch_ne_violate (cfg : TfwHttpCookieCfg)
    (challenged timedOut : Bool) :
    absentBranch cfg challenged timedOut ≠ TFW_HTTP_SESS_VIOLATE := by
  unfold absentBranch
  cases h : cfg.enforce <;> cases hj : cfg.js_challenge <;>
    cases challenged <;> cases timedOut <;> simp <;> decide

/-- A miss always advances the per-client miss counter by one. -/
theorem missStep_counter (cfg : TfwHttpCookieCfg)
    (challenged timedOut : Bool) (c : Nat) :
    (missStep cfg challenged timedOut c).2 = c + 1 := by
  unfold missStep
  split <;> rfl

/-- Splitting a run of consecutive misses. -/
theorem missRunFrom_append (cfg : TfwHttpCookieCfg)
    (challenged timedOut : Bool) (n1 n2 c : Nat) :
    missRunFrom cfg challenged timedOut c (n1 + n2)
      = missRunFrom cfg challenged timedOut c n1 ++
        missRunFrom cfg challenged timedOut (c + n1) n2 := by
  induction n1 generalizing c with
  | zero => simp [missRunFrom]
  | succ n ih =>
      rw [show n + 1 + n2 = (n + n2) + 1 from by omega]
      rw [missRunFrom, missRunFrom, missStep_counter, ih (c + 1),
        show c + 1 + n = c + (n + 1) from by omega]
      simp

/-- While the counter stays at or below `max_misses`, every miss is handled
like an absent cookie. -/
theorem missRunFrom_below (cfg : TfwHttpCookieCfg)
    (challenged timedOut : Bool) (n c : Nat)
    (h : c + n ≤ cfg.max_misses) :
    missRunFrom cfg challenged timedOut c n
      = List.replicate n (absentBranch cfg challenged timedOut) := by
  induction n generalizing c with
  | zero => rfl
  | succ n ih =>
      rw [missRunFrom, missStep_counter]
      have hd : (missStep cfg challenged timedOut c).1
          = absentBranch cfg challenged timedOut := by
        unfold missStep
        rw [if_neg (by omega)]
      rw [hd, ih (c + 1) (by omega)]
      rfl

/-- C4: presenting consecutive invalid cookies, each of the first
`max_misses` requests is dispatched exactly like a request with no cookie
(hence never `VIOLATE`), and the `(max_misses + 1)`-th yields `VIOLATE`. -/
theorem C4_miss_threshold (cfg : TfwHttpCookieCfg)
    (challenged timedOut : Bool) :
    missRunFrom cfg challenged timedOut 0 (cfg.max_misses + 1)
      = List.replicate cfg.max_misses
          (absentBranch cfg challenged timedOut) ++
        [TFW_HTTP_SESS_VIOLATE] ∧
    absentBranch cfg challenged timedOut ≠ TFW_HTTP_SESS_VIOLATE := by
  refine ⟨?_, absentBranch_ne_violate cfg challenged timedOut⟩
  rw [missRunFrom_append cfg challenged timedOut cfg.max_misses 1 0,
    missRunFrom_below cfg challenged timedOut cfg.max_misses 0 (by omega)]
  have hv : missRunFrom cfg challenged timedOut (0 + cfg.max_misses) 1
      = [TFW_HTTP_SESS_VIOLATE] := by
    rw [missRunFrom]
    have hd : (missStep cfg challenged timedOut (0 + cfg.max_misses)).1
        = TFW_HTTP_SESS_VIOLATE := by
      unfold missStep
      rw [if_pos (by omega)]
    rw [hd]
    rfl
  rw [hv]

/-- The fast path of the pinning policy, iterated: while the pinned
connection stays in an active, reachable group, every call returns it,
leaves the session untouched and never invokes the external scheduler. -/
theorem runGetSrvConn_fast (env : PinEnv) (s : TfwHttpSess) (c : Nat)
    (n : Nat) (hpin : s.srv_conn = some c) (hlive : env.liveConn c = true) :
    runGetSrvConn env n s = (List.replicate n (some c), s, 0) := by
  have hstep : get_srv_conn env s = (some c, s, false) := by
    unfold get_srv_conn
    rw [hpin]
    simp [hlive]
  induction n with
  | zero => rfl
  | succ n ih =>
      simp only [runGetSrvConn, hstep]
      rw [ih]
      simp [List.replicate_succ]

/-- C7: once a session is pinned to a connection that remains part of an
active, reachable server group, every `get_srv_conn` call (in particular
1,000 consecutive ones) returns that connection and never invokes the
external scheduler. -/
theorem C7_pinning_stability (env : PinEnv) (s : TfwHttpSess) (c : Nat)
    (n : Nat) (hpin : s.srv_conn = some c) (hlive : env.liveConn c = true) :
    runGetSrvConn env n s = (List.replicate n (some c), s, 0) :=
  runGetSrvConn_fast env s c n hpin hlive

/-- Witness for C7: 1,000 consecutive calls on a session pinned to
connection 1 in a pool where every connection is live. -/
theorem C7_pinning_stability_witness :
    runGetSrvConn demoEnvLive 1000 demoSess
      = (List.replicate 1000 (some 1), demoSess, 0) :=
  C7_pinning_stability demoEnvLive demoSess 1 1000 rfl rfl

/-- C8: when the pinned connection's server has been removed and re-pinning
is permitted, the next `get_srv_conn` call invokes the external scheduler
exactly once, returns a new connection different from the old one, stores
it as the session's pinned connection, and all subsequent calls return it
with no further scheduler invocation. -/
theorem C8_pinning_repair (env : PinEnv) (s : TfwHttpSess) (c : Nat)
    (n : Nat) (hpin : s.srv_conn = some c)
    (hdead : env.liveConn c = false) (hen : env.pinEnabled = true)
    (hre : env.repinAllowed = true)
    (hlive2 : env.liveConn env.sched = true) (hne : env.sched ≠ c) :
    runGetSrvConn env (n + 1) s
      = (List.replicate (n + 1) (some env.sched),
         { s with srv_conn := some env.sched }, 1) ∧
    some env.sched ≠ some c := by
  have hstep : get_srv_conn env s
      = (some env.sched, { s with srv_conn := some env.sched }, true) := by
    unfold get_srv_conn
    rw [hpin]
    simp [hdead, hen, hre]
  have htail := runGetSrvConn_fast env { s with srv_conn := some env.sched }
    env.sched n rfl hlive2
  refine ⟨?_, by simp [hne]⟩
  simp only [runGetSrvConn, hstep]
  rw [htail]
  simp [List.replicate_succ]

/-- Witness for C8: the pinned connection 1 is dead, the scheduler hands
out connection 2, ten follow-up calls stick to it. -/
theorem C8_pinning_repair_witness :
    runGetSrvConn demoEnvDead 11 demoSess
      = (List.replicate 11 (some 2),
         { demoSess with srv_conn := some 2 }, 1) ∧
    (some 2 : Option Nat) ≠ some 1 :=
  C8_pinning_repair demoEnvDead demoSess 1 10 rfl rfl rfl rfl rfl
    (by decide)

/-- Counterexample to C9 as stated: with pinning disabled at the vhost but
the pinned connection still live, `get_srv_conn` takes the fast path: it
returns the pinned connection, does not mark the session expired and does
not fall through to the external scheduler (the header's reconfiguration
case 2: keep using the pinned server until the session expires). -/
theorem C9_counterexample :
    demoEnvNoPin.pinEnabled = false ∧
    get_srv_conn demoEnvNoPin demoSess = (some 1, demoSess, false) ∧
    demoSess.expires ≠ 0 := by
  refine ⟨rfl, rfl, by decide⟩

/-- C9 (amended): a `get_srv_conn` call on a session with no live pinned
connection, when pinning is disabled at the vhost or the pinned server was
removed while re-pinning on removal is disallowed, marks the session
expired immediately and falls through to the external scheduler without
updating the pinned connection. -/
theorem C9_expire_and_fall_through (env : PinEnv) (s : TfwHttpSess)
    (hnl : ∀ c, s.srv_conn = some c → env.liveConn c = false)
    (hdis : env.pinEnabled = false ∨
            (s.srv_conn ≠ none ∧ env.repinAllowed = false)) :
    get_srv_conn env s = (some env.sched, { s with expires := 0 }, true) ∧
    ({ s with expires := 0 } : TfwHttpSess).srv_conn = s.srv_conn := by
  refine ⟨?_, rfl⟩
  unfold get_srv_conn
  cases hs : s.srv_conn with
  | none =>
      rcases hdis with hp | ⟨hne2, _⟩
      · simp [hp]
      · exact absurd hs hne2
  | some c =>
      have hl := hnl c hs
      rcases hdis with hp | ⟨_, hr⟩
      · simp [hl, hp]
      · simp [hl, hr]

/-- Witness for C9 (amended): pinning disabled and the pinned connection
dead; the session is expired and the scheduler's connection 7 is used. -/
theorem C9_expire_and_fall_through_witness :
    get_srv_conn demoEnvExpire demoSess
      = (some 7, { demoSess with expires := 0 }, true) :=
  (C9_expire_and_fall_through demoEnvExpire demoSess (fun _ _ => rfl)
    (Or.inl rfl)).1

/-! ## Session table lemmas -/

/-- Membership after `updFirst`: an element is either an untouched original
or the image of the first match. -/
theorem mem_updFirst (p : TfwHttpSess → Bool) (f : TfwHttpSess → TfwHttpSess)
    (l : List TfwHttpSess) (x : TfwHttpSess) (h : x ∈ updFirst p f l) :
    x ∈ l ∨ ∃ y, l.find? p = some y ∧ x = f y := by
  induction l with
  | nil => simp [updFirst] at h
  | cons a l ih =>
      by_cases hp : p a
      · rw [updFirst, if_pos hp] at h
        rcases List.mem_cons.mp h with rfl | hx
        · exact Or.inr ⟨a, List.find?_cons_of_pos _ hp, rfl⟩
        · exact Or.inl (List.mem_cons_of_mem a hx)
      · rw [updFirst, if_neg hp] at h
        rcases List.mem_cons.mp h with rfl | hx
        · exact Or.inl (List.mem_cons_self _ _)
        · rcases ih hx with hx2 | ⟨y, hy, rfl⟩
          · exact Or.inl (List.mem_cons_of_mem a hx2)
          · exact Or.inr ⟨y, by rw [List.find?_cons_of_neg _ hp]; exact hy,
              rfl⟩

/-- `find?` after `updFirst` with a predicate the update preserves. -/
theorem find?_updFirst (p : TfwHttpSess → Bool) (f : TfwHttpSess → TfwHttpSess)
    (hf : ∀ x, p (f x) = p x) (l : List TfwHttpSess) :
    (updFirst p f l).find? p = (l.find? p).map f := by
  induction l with
  | nil => rfl
  | cons a l ih =>
      by_cases hp : p a
      · rw [updFirst, if_pos hp, List.find?_cons_of_pos _ (by rw [hf]; exact hp),
          List.find?_cons_of_pos _ hp]
        rfl
      · rw [updFirst, if_neg hp, List.find?_cons_of_neg _ hp,
          List.find?_cons_of_neg _ hp]
        exact ih

/-- `countP` is unchanged by `updFirst` when the update preserves the
counted predicate. -/
theorem countP_updFirst (p q : TfwHttpSess → Bool)
    (f : TfwHttpSess → TfwHttpSess) (hq : ∀ x, q (f x) = q x)
    (l : List TfwHttpSess) :
    (updFirst p f l).countP q = l.countP q := by
  induction l with
  | nil => rfl
  | cons a l ih =>
      by_cases hp : p a
      · rw [updFirst, if_pos hp, List.countP_cons, List.countP_cons, hq]
      · rw [updFirst, if_neg hp, List.countP_cons, List.countP_cons, ih]

/-- When the filter of a list is a singleton, `find?` returns exactly that
element. -/
theorem find?_of_filter_eq_single (p : TfwHttpSess → Bool)
    (l : List TfwHttpSess) (r : TfwHttpSess) (h : l.filter p = [r]) :
    l.find? p = some r := by
  induction l with
  | nil => simp at h
  | cons a l ih =>
      by_cases hp : p a
      · rw [List.filter_cons_of_pos hp] at h
        simp only [List.cons.injEq] at h
        rw [List.find?_cons_of_pos _ hp, h.1]
      · rw [List.filter_cons_of_neg hp] at h
        rw [List.find?_cons_of_neg _ hp]
        exact ih h

/-- `updFirst` over a list whose filter is a singleton rewrites that
filter pointwise. -/
theorem filter_updFirst_single (p : TfwHttpSess → Bool)
    (f : TfwHttpSess → TfwHttpSess) (hf : ∀ x, p (f x) = p x)
    (l : List TfwHttpSess) (r : TfwHttpSess) (h : l.filter p = [r]) :
    (updFirst p f l).filter p = [f r] := by
  induction l with
  | nil => simp at h
  | cons a l ih =>
      by_cases hp : p a
      · rw [List.filter_cons_of_pos hp] at h
        simp only [List.cons.injEq] at h
        rw [updFirst, if_pos hp,
          List.filter_cons_of_pos (by rw [hf]; exact hp), h.1, h.2]
      · rw [List.filter_cons_of_neg hp] at h
        rw [updFirst, if_neg hp, List.filter_cons_of_neg hp]
        exact ih h

/-- Counterexample to C6 as stated: a record that is still referenced
(`users = 1`), touched at time 0 with `sess_lifetime = 5` and not touched
again, is still in the table after a reap at time `0 + 5 + 1`, because reap
never removes a record whose use counter is nonzero. -/
theorem C6_sliding_expiry_counterexample :
    findRec (reap (touch demoTableHeld [1] 0 5) (0 + 5 + 1)) [1] ≠ none := by
  decide

/-- C6 (amended): `touch` at time `tm` slides the record's expiry to
`tm + sess_lifetime`; a session touched at `tm` with no further touch is
still found by lookup at `tm + sess_lifetime - 1`, and, provided the record
is unreferenced (`users = 0`), is absent after a reap at
`tm + sess_lifetime + 1`. -/
theorem C6_sliding_expiry (t : SessTable) (k : List Nat)
    (tm lifetime : Nat) (r : TfwHttpSess)
    (huniq : t.recs.filter (keyMatch k) = [r]) (husers : r.users = 0) :
    lookupLive (touch t k tm lifetime) k (tm + lifetime - 1)
      = some (setExpires tm lifetime r) ∧
    findRec (reap (touch t k tm lifetime) (tm + lifetime + 1)) k = none := by
  have hfind : t.recs.find? (keyMatch k) = some r :=
    find?_of_filter_eq_single _ _ _ huniq
  have htouch : findRec (touch t k tm lifetime) k
      = some (setExpires tm lifetime r) := by
    unfold findRec touch
    rw [find?_updFirst (keyMatch k) (setExpires tm lifetime) (fun x => rfl)
      t.recs, hfind]
    rfl
  constructor
  · unfold lookupLive
    rw [htouch]
    show (if (setExpires tm lifetime r).expires < tm + lifetime - 1 then none
          else some (setExpires tm lifetime r))
        = some (setExpires tm lifetime r)
    rw [if_neg (by simp only [setExpires]; omega)]
  · have hflt : (touch t k tm lifetime).recs.filter (keyMatch k)
        = [setExpires tm lifetime r] :=
      filter_updFirst_single (keyMatch k) (setExpires tm lifetime)
        (fun x => rfl) t.recs r huniq
    unfold findRec reap
    rw [List.find?_eq_none]
    intro x hx hpx
    have hx2 : x ∈ (touch t k tm lifetime).recs := (List.mem_filter.mp hx).1
    have hkeep : reapKeep (tm + lifetime + 1) x = true :=
      (List.mem_filter.mp hx).2
    have hxf : x ∈ (touch t k tm lifetime).recs.filter (keyMatch k) :=
      List.mem_filter.mpr ⟨hx2, hpx⟩
    rw [hflt] at hxf
    have hx3 : x = setExpires tm lifetime r := List.mem_singleton.mp hxf
    rw [hx3] at hkeep
    simp [reapKeep, setExpires, husers] at hkeep

/-- Witness for C6 (amended) on a one-record table whose record is
unreferenced. -/
theorem C6_sliding_expiry_witness :
    lookupLive (touch demoTableIdle [1] 0 5) [1] (0 + 5 - 1)
      = some (setExpires 0 5 demoRecIdle) ∧
    findRec (reap (touch demoTableIdle [1] 0 5) (0 + 5 + 1)) [1] = none :=
  C6_sliding_expiry demoTableIdle [1] 0 5 demoRecIdle (by decide) rfl

/-- `lookup_or_create` on a present key, fully characterised. -/
theorem lookup_or_create_found (t : SessTable) (k : List Nat)
    (now lifetime : Nat) (r : TfwHttpSess)
    (h : t.recs.find? (keyMatch k) = some r) :
    lookup_or_create t k now lifetime
      = (bumpUsers r, false,
         { t with recs := updFirst (keyMatch k) bumpUsers t.recs }) := by
  unfold lookup_or_create
  rw [h]

/-- `lookup_or_create` on an unseen key, fully characterised. -/
theorem lookup_or_create_new (t : SessTable) (k : List Nat)
    (now lifetime : Nat) (h : t.recs.find? (keyMatch k) = none) :
    lookup_or_create t k now lifetime
      = (newRec t k now lifetime, true,
         { recs := newRec t k now lifetime :: t.recs,
           nextId := t.nextId + 1 }) := by
  unfold lookup_or_create
  rw [h]

/-- The freshly created record carries the requested key. -/
theorem keyMatch_newRec (t : SessTable) (k : List Nat)
    (now lifetime : Nat) : keyMatch k (newRec t k now lifetime) = true := by
  simp [keyMatch, newRec]

/-- One table step keeps every key's record count at most one. -/
theorem countKey_step_le_one (t : SessTable) (op : SessOp)
    (h : ∀ k2, countKey t k2 ≤ 1) (k2 : List Nat) :
    countKey (stepOp t op) k2 ≤ 1 := by
  cases op with
  | obtain k now lifetime =>
      show countKey (lookup_or_create t k now lifetime).2.2 k2 ≤ 1
      cases hf : t.recs.find? (keyMatch k) with
      | some r =>
          rw [lookup_or_create_found t k now lifetime r hf]
          show (updFirst (keyMatch k) bumpUsers t.recs).countP (keyMatch k2)
              ≤ 1
          rw [countP_updFirst (keyMatch k) (keyMatch k2) bumpUsers
            (fun x => rfl)]
          exact h k2
      | none =>
          rw [lookup_or_create_new t k now lifetime hf]
          show (newRec t k now lifetime :: t.recs).countP (keyMatch k2) ≤ 1
          rw [List.countP_cons]
          by_cases hk : keyMatch k2 (newRec t k now lifetime) = true
          · have hkk : k = k2 := by
              simpa [keyMatch, newRec] using hk
            subst hkk
            have hz : t.recs.countP (keyMatch k) = 0 :=
              List.countP_eq_zero.mpr (List.find?_eq_none.mp hf)
            rw [hz, if_pos hk]
          · rw [if_neg hk]
            simpa using h k2
  | put k =>
      show (updFirst (keyMatch k) decUsers t.recs).countP (keyMatch k2) ≤ 1
      rw [countP_updFirst (keyMatch k) (keyMatch k2) decUsers (fun x => rfl)]
      exact h k2
  | touchOp k now lifetime =>
      show (updFirst (keyMatch k) (setExpires now lifetime)
              t.recs).countP (keyMatch k2) ≤ 1
      rw [countP_updFirst (keyMatch k) (keyMatch k2) (setExpires now lifetime)
        (fun x => rfl)]
      exact h k2
  | reapOp now =>
      show (t.recs.filter (reapKeep now)).countP (keyMatch k2) ≤ 1
      exact le_trans
        (List.Sublist.countP_le _ (List.filter_sublist t.recs)) (h k2)

/-- Any run of table operations keeps every key's record count at most
one. -/
theorem countKey_runOps_le_one (ops : List SessOp) (t : SessTable)
    (h : ∀ k, countKey t k ≤ 1) : ∀ k, countKey (runOps t ops) k ≤ 1 := by
  induction ops generalizing t with
  | nil => exact h
  | cons op ops ih =>
      exact ih (stepOp t op) (fun k => countKey_step_le_one t op h k)

/-- Back-to-back obtains on a key that is already present: every caller
sees the original record's identity, nobody creates, and the key's record
count never changes. -/
theorem obtainSeq_found (k : List Nat) (now lifetime : Nat) (n : Nat)
    (t : SessTable) (r : TfwHttpSess)
    (h : t.recs.find? (keyMatch k) = some r) :
    (∀ q ∈ (obtainSeq k now lifetime n t).1,
       q.1.sid = r.sid ∧ q.2 = false) ∧
    (∃ r2, (obtainSeq k now lifetime n t).2.recs.find? (keyMatch k)
        = some r2 ∧ r2.sid = r.sid) ∧
    countKey (obtainSeq k now lifetime n t).2 k = countKey t k := by
  induction n generalizing t r with
  | zero => exact ⟨by simp [obtainSeq], ⟨r, h, rfl⟩, rfl⟩
  | succ n ih =>
      have hlc := lookup_or_create_found t k now lifetime r h
      have hfind2 : (lookup_or_create t k now lifetime).2.2.recs.find?
          (keyMatch k) = some (bumpUsers r) := by
        rw [hlc]
        show (updFirst (keyMatch k) bumpUsers t.recs).find? (keyMatch k)
            = some (bumpUsers r)
        rw [find?_updFirst (keyMatch k) bumpUsers (fun x => rfl) t.recs, h]
        rfl
      obtain ⟨ha, ⟨r2, hr2, hsid⟩, hcnt⟩ :=
        ih (lookup_or_create t k now lifetime).2.2 (bumpUsers r) hfind2
      refine ⟨?_, ⟨r2, hr2, by rw [hsid]; rfl⟩, ?_⟩
      · intro q hq
        simp only [obtainSeq] at hq
        rcases List.mem_cons.mp hq with rfl | hq2
        · rw [hlc]
          exact ⟨rfl, rfl⟩
        · exact ha q hq2
      · show countKey
            (obtainSeq k now lifetime n
              (lookup_or_create t k now lifetime).2.2).2 k = countKey t k
        rw [hcnt, hlc]
        show (updFirst (keyMatch k) bumpUsers t.recs).countP (keyMatch k)
            = t.recs.countP (keyMatch k)
        exact countP_updFirst (keyMatch k) (keyMatch k) bumpUsers
          (fun x => rfl) t.recs

/-- C1: in every reachable state of the session table at most one record
exists per distinct key; `lookup_or_create` on an already-present key
returns the existing record (same identity, `created = false`) without
inserting a second one; and any number of racing obtains on the same
unseen key create exactly one record, every caller observing that same
record. -/
theorem C1_key_uniqueness (ops : List SessOp) :
    (∀ k, countKey (runOps emptyTable ops) k ≤ 1) ∧
    (∀ k now lifetime r,
       findRec (runOps emptyTable ops) k = some r →
       (lookup_or_create (runOps emptyTable ops) k now lifetime).1.sid
           = r.sid ∧
       (lookup_or_create (runOps emptyTable ops) k now lifetime).2.1
           = false ∧
       countKey
           (lookup_or_create (runOps emptyTable ops) k now lifetime).2.2 k
         = countKey (runOps emptyTable ops) k) ∧
    (∀ k now lifetime n,
       findRec (runOps emptyTable ops) k = none → 1 ≤ n →
       ((obtainSeq k now lifetime n (runOps emptyTable ops)).1.filter
           (fun q => q.2)).length = 1 ∧
       (∀ q ∈ (obtainSeq k now lifetime n (runOps emptyTable ops)).1,
          q.1.sid = (runOps emptyTable ops).nextId) ∧
       countKey (obtainSeq k now lifetime n (runOps emptyTable ops)).2 k
         = 1) := by
  refine ⟨countKey_runOps_le_one ops emptyTable (fun k => Nat.le_succ 0),
    ?_, ?_⟩
  · intro k now lifetime r hr
    rw [lookup_or_create_found _ k now lifetime r hr]
    refine ⟨rfl, rfl, ?_⟩
    show (updFirst (keyMatch k) bumpUsers (runOps emptyTable ops).recs).countP
        (keyMatch k) = countKey (runOps emptyTable ops) k
    exact countP_updFirst (keyMatch k) (keyMatch k) bumpUsers
      (fun x => rfl) (runOps emptyTable ops).recs
  · intro k now lifetime n hnone hn
    cases n with
    | zero => omega
    | succ m =>
        have hlc := lookup_or_create_new (runOps emptyTable ops) k now
          lifetime hnone
        have hfind2 : (lookup_or_create (runOps emptyTable ops) k now
            lifetime).2.2.recs.find? (keyMatch k)
            = some (newRec (runOps emptyTable ops) k now lifetime) := by
          rw [hlc]
          exact List.find?_cons_of_pos _ (keyMatch_newRec _ k now lifetime)
        obtain ⟨ha, ⟨r2, hr2, hsid⟩, hcnt⟩ :=
          obtainSeq_found k now lifetime m
            (lookup_or_create (runOps emptyTable ops) k now lifetime).2.2
            (newRec (runOps emptyTable ops) k now lifetime) hfind2
        have htail0 : ∀ q ∈ (obtainSeq k now lifetime m
            (lookup_or_create (runOps emptyTable ops) k now
              lifetime).2.2).1, q.2 = false := fun q hq => (ha q hq).2
        refine ⟨?_, ?_, ?_⟩
        · simp only [obtainSeq]
          rw [List.filter_cons_of_pos (by rw [hlc])]
          rw [List.filter_eq_nil_iff.mpr (by
            intro q hq
            rw [htail0 q hq]
            exact fun hq2 => by simp at hq2)]
          rfl
        · intro q hq
          simp only [obtainSeq] at hq
          rcases List.mem_cons.mp hq with rfl | hq2
          · rw [hlc]
            rfl
          · exact (ha q hq2).1
        · show countKey (obtainSeq k now lifetime m
              (lookup_or_create (runOps emptyTable ops) k now
                lifetime).2.2).2 k = 1
          rw [hcnt, hlc]
          show (newRec (runOps emptyTable ops) k now lifetime ::
              (runOps emptyTable ops).recs).countP (keyMatch k) = 1
          rw [List.countP_cons,
            List.countP_eq_zero.mpr (List.find?_eq_none.mp hnone),
            if_pos (keyMatch_newRec _ k now lifetime)]

/-- Witness for C1: three racing obtains on the unseen key `[5]` in the
empty table, and one further obtain after the key is present. -/
theorem C1_key_uniqueness_witness :
    (∀ k, countKey (runOps emptyTable []) k ≤ 1) ∧
    ((obtainSeq [5] 0 10 3 (runOps emptyTable [])).1.filter
        (fun q => q.2)).length = 1 ∧
    (∀ q ∈ (obtainSeq [5] 0 10 3 (runOps emptyTable [])).1,
       q.1.sid = (runOps emptyTable []).nextId) ∧
    countKey (obtainSeq [5] 0 10 3 (runOps emptyTable [])).2 [5] = 1 ∧
    (lookup_or_create (runOps emptyTable [SessOp.obtain [5] 0 10]) [5] 1
        10).2.1 = false := by
  obtain ⟨h1, -, h3⟩ := C1_key_uniqueness []
  obtain ⟨g1, g2, g3⟩ := h3 [5] 0 10 3 rfl (by omega)
  obtain ⟨-, f2, -⟩ :=
    (C1_key_uniqueness [SessOp.obtain [5] 0 10]).2.1 [5] 1 10
      (newRec emptyTable [5] 0 10) rfl
  exact ⟨h1, g1, g2, g3, f2⟩

/-- One valid step preserves nonnegative use counters. -/
theorem step_users_nonneg (t : SessTable) (op : SessOp)
    (h : ∀ x ∈ t.recs, 0 ≤ x.users)
    (hv : (match op with
           | SessOp.put k =>
               match findRec t k with
               | some r => decide (0 < r.users)
               | none => false
           | _ => true) = true) :
    ∀ x ∈ (stepOp t op).recs, 0 ≤ x.users := by
  cases op with
  | obtain k now lifetime =>
      simp only [stepOp]
      cases hf : t.recs.find? (keyMatch k) with
      | some r =>
          rw [lookup_or_create_found t k now lifetime r hf]
          intro x hx
          rcases mem_updFirst _ _ _ x hx with hx2 | ⟨y, hy, rfl⟩
          · exact h x hx2
          · have hy2 := h y (List.mem_of_find?_eq_some hy)
            show 0 ≤ y.users + 1
            omega
      | none =>
          rw [lookup_or_create_new t k now lifetime hf]
          intro x hx
          rcases List.mem_cons.mp hx with rfl | hx2
          · show (0 : Int) ≤ 1
            omega
          · exact h x hx2
  | put k =>
      have hv2 : (match findRec t k with
                  | some r => decide (0 < r.users)
                  | none => false) = true := hv
      simp only [stepOp, release]
      cases hfr : findRec t k with
      | none => rw [hfr] at hv2; simp at hv2
      | some r =>
          rw [hfr] at hv2
          simp only [decide_eq_true_eq] at hv2
          intro x hx
          rcases mem_updFirst _ _ _ x hx with hx2 | ⟨y, hy, rfl⟩
          · exact h x hx2
          · have hyr : y = r := by
              have hfr2 : t.recs.find? (keyMatch k) = some r := hfr
              exact Option.some.inj (hy.symm.trans hfr2)
            subst hyr
            show 0 ≤ y.users - 1
            omega
  | touchOp k now lifetime =>
      simp only [stepOp, touch]
      intro x hx
      rcases mem_updFirst _ _ _ x hx with hx2 | ⟨y, hy, rfl⟩
      · exact h x hx2
      · exact h y (List.mem_of_find?_eq_some hy)
  | reapOp now =>
      simp only [stepOp, reap]
      intro x hx
      exact h x (List.mem_filter.mp hx).1

/-- Along a valid trace, every record's use counter stays nonnegative. -/
theorem runOps_users_nonneg (ops : List SessOp) (t : SessTable)
    (h : ∀ x ∈ t.recs, 0 ≤ x.users) (hv : validOps t ops = true) :
    ∀ x ∈ (runOps t ops).recs, 0 ≤ x.users := by
  induction ops generalizing t with
  | nil => exact h
  | cons op ops ih =>
      simp only [validOps, Bool.and_eq_true] at hv
      exact ih (stepOp t op) (step_users_nonneg t op h hv.1) hv.2

/-- C2: along every valid trace of obtains, puts, touches and reaps, each
record's use counter stays nonnegative; `obtain` increments the counter
(the creating caller starts it at 1) and `put` decrements it; and a reap
never removes a record whose counter is nonzero — removal requires both
`users = 0` and expiry. -/
theorem C2_refcount_safety (t : SessTable) :
    (∀ ops, (∀ x ∈ t.recs, 0 ≤ x.users) → validOps t ops = true →
       ∀ x ∈ (runOps t ops).recs, 0 ≤ x.users) ∧
    (∀ k now lifetime r, findRec t k = some r →
       (lookup_or_create t k now lifetime).1.users = r.users + 1 ∧
       findRec (lookup_or_create t k now lifetime).2.2 k
         = some (bumpUsers r)) ∧
    (∀ k now lifetime, findRec t k = none →
       (lookup_or_create t k now lifetime).1.users = 1) ∧
    (∀ k r, findRec t k = some r →
       findRec (release t k) k = some (decUsers r)) ∧
    (∀ now x, x ∈ t.recs → x.users ≠ 0 → x ∈ (reap t now).recs) ∧
    (∀ now x, x ∈ t.recs → x ∉ (reap t now).recs →
       x.users = 0 ∧ x.expires < now) := by
  refine ⟨fun ops => runOps_users_nonneg ops t, ?_, ?_, ?_, ?_, ?_⟩
  · intro k now lifetime r hr
    rw [lookup_or_create_found t k now lifetime r hr]
    refine ⟨rfl, ?_⟩
    show (updFirst (keyMatch k) bumpUsers t.recs).find? (keyMatch k)
        = some (bumpUsers r)
    rw [find?_updFirst (keyMatch k) bumpUsers (fun x => rfl) t.recs]
    have hr2 : t.recs.find? (keyMatch k) = some r := hr
    rw [hr2]
    rfl
  · intro k now lifetime hnone
    rw [lookup_or_create_new t k now lifetime hnone]
    rfl
  · intro k r hr
    show (updFirst (keyMatch k) decUsers t.recs).find? (keyMatch k)
        = some (decUsers r)
    rw [find?_updFirst (keyMatch k) decUsers (fun x => rfl) t.recs]
    have hr2 : t.recs.find? (keyMatch k) = some r := hr
    rw [hr2]
    rfl
  · intro now x hx hu
    exact List.mem_filter.mpr ⟨hx, by simp [reapKeep, hu]⟩
  · intro now x hx hnx
    have hk : reapKeep now x = false := by
      cases hkk : reapKeep now x with
      | false => rfl
      | true => exact absurd (List.mem_filter.mpr ⟨hx, hkk⟩) hnx
    simp only [reapKeep, Bool.not_eq_false', Bool.and_eq_true,
      decide_eq_true_eq] at hk
    exact ⟨hk.2, hk.1⟩

/-- Witness for C2 on concrete one-record tables: a valid put trace, an
obtain on a present and on an absent key, a release, a reap that keeps the
referenced record, and a reap that removes an expired unreferenced one. -/
theorem C2_refcount_safety_witness :
    (∀ x ∈ (runOps demoTableHeld [SessOp.put [1]]).recs, 0 ≤ x.users) ∧
    (lookup_or_create demoTableHeld [1] 3 10).1.users
      = demoRecHeld.users + 1 ∧
    (lookup_or_create demoTableHeld [2] 3 10).1.users = 1 ∧
    findRec (release demoTableHeld [1]) [1] = some (decUsers demoRecHeld) ∧
    demoRecHeld ∈ (reap demoTableHeld 5).recs ∧
    (demoRecIdle.users = 0 ∧ demoRecIdle.expires < 5) := by
  have h := C2_refcount_safety demoTableHeld
  have hi := C2_refcount_safety demoTableIdle
  exact ⟨h.1 [SessOp.put [1]] (by decide) (by decide),
    (h.2.1 [1] 3 10 demoRecHeld rfl).1,
    h.2.2.1 [2] 3 10 rfl,
    h.2.2.2.1 [1] demoRecHeld rfl,
    h.2.2.2.2.1 5 demoRecHeld (by decide) (by decide),
    hi.2.2.2.2.2 5 demoRecIdle (by decide) (by decide)⟩

end HttpSess
